import Mathlib

/-!
Shallow embedding of the stream-monitoring / triggered-dispatch pipeline of the
assisted_speech_bot repository, centred on `RadioStreamTrader` in
src/radio_transcript.py (with the `MultiMarketTrader.place_trade` variant of
src/youtube.py where a claim depends on it).

Conventions of the embedding:
- Python strings are Lean `String`; Python `str.lower` is per-character
  lowercasing (`lowerStr`), Python `needle in hay` on strings is contiguous
  substring containment (`pyInStr`), and `x in list` / `x in set` is membership
  by equality (`listHas`), `set.add` is `setAdd`.
- The external order backend is an oracle `Nat → SubmitResult` giving, for each
  call index, whether `create_order`/`post_order` raised a transport exception
  or returned a response (`none` models a falsy response, `some r` a truthy
  one).  The `backoff.on_exception(..., max_tries=5, ...)` decorator is
  `runWithRetry` with fuel `maxTries = 5`: an attempt that raises is retried
  until the cap, a returned response is passed through; after five raising
  attempts the exception propagates (`Except.error`).
- `place_trade` is modelled as a pure function of the dedup flag, the
  `executed_markets` set, the market id and the oracle, returning the recorded
  status, the set afterwards, the audit files written (`json.dump` into the
  trades directory, file-name stems as in the source) and the number of
  `trade_logger` records emitted inside `place_trade` itself.
- Timing (latencies, backoff delays, timestamps) and the content of log lines
  are not modelled; the branch structure is translated line by line.
-/

namespace SpeechBot

/-- Python str.lower on the character data (per-character lowercasing). -/
def charsLower (l : List Char) : List Char := l.map Char.toLower

/-- Python str.lower on a string. -/
def lowerStr (s : String) : String := ⟨charsLower s.data⟩

/-- Auxiliary: the first list is a prefix of the second. -/
def isPrefixOfChars : List Char → List Char → Bool
  | [], _ => true
  | _ :: _, [] => false
  | a :: as, b :: bs => if a = b then isPrefixOfChars as bs else false

/-- Auxiliary: the first list occurs contiguously inside the second. -/
def containsChars (needle : List Char) : List Char → Bool
  | [] => isPrefixOfChars needle []
  | b :: bs => if isPrefixOfChars needle (b :: bs) then true else containsChars needle bs

/-- Python `needle in hay` for strings: contiguous substring containment. -/
def pyInStr (needle hay : String) : Bool := containsChars needle.data hay.data

/-- Python `x in l` for a list or set of strings: membership by equality. -/
def listHas (s : List String) (x : String) : Bool :=
  match s with
  | [] => false
  | y :: t => if y = x then true else listHas t x

/-- Python `set.add` on the executed-markets set. -/
def setAdd (x : String) (s : List String) : List String :=
  if listHas s x then s else x :: s

/-- Transcript post-processing in process_audio (radio_transcript.py lines
309-314): `text = result.get("text", "").lower()`, then `if text:` guards all
further handling, so exactly the empty string is suppressed. -/
def utteranceOfResult (raw : String) : Option String :=
  let text := lowerStr raw
  if text = "" then none else some text

/-- Drop leading and trailing whitespace of a character list. -/
def trimChars (l : List Char) : List Char :=
  ((l.dropWhile Char.isWhitespace).reverse.dropWhile Char.isWhitespace).reverse

/-- Modelled from the spec (section 4.2 TranscriptNormalizer), for comparison
with `utteranceOfResult`: lowercase and trim the finalized result and suppress
an empty or whitespace-only text. -/
def utteranceOfResultSpec (raw : String) : Option String :=
  let text : String := ⟨trimChars (charsLower raw.data)⟩
  if text = "" then none else some text

/-- One configured market (markets.yaml entry as read in process_audio):
keyword list and trigger type, keyed by market id. -/
structure MarketConfig where
  marketId : String
  keywords : List String
  triggerType : String

/-- The global exact_matching setting overrides a market's trigger type
(radio_transcript.py lines 335-336). -/
def effectiveTriggerType (exactMatching : Bool) (t : String) : String :=
  if exactMatching then "exact" else t

/-- Contains-mode scan (radio_transcript.py lines 345-349): first configured
keyword that occurs in the text wins, then the loop breaks. -/
def firstContainedKeyword (keywords : List String) (text : String) : Option String :=
  match keywords with
  | [] => none
  | kw :: rest => if pyInStr kw text then some kw else firstContainedKeyword rest text

/-- Keyword detection for one market (radio_transcript.py lines 338-349):
exact mode tests `text in keywords` and reports the text itself; any
(contains) mode reports the first contained keyword; other trigger types never
detect. -/
def detectKeyword (text : String) (keywords : List String) (triggerType : String) : Option String :=
  if triggerType = "exact" then
    (if listHas keywords text then some text else none)
  else if triggerType = "any" then
    firstContainedKeyword keywords text
  else none

/-- The per-market body of the utterance loop (radio_transcript.py lines
323-349): a market already in executed_markets is skipped when dedup is on,
otherwise detection runs under the effective trigger type. -/
def matcherFires (preventDup : Bool) (executed : List String) (exactMatching : Bool)
    (m : MarketConfig) (text : String) : Option String :=
  if listHas executed m.marketId && preventDup then none
  else detectKeyword text m.keywords (effectiveTriggerType exactMatching m.triggerType)

/-- Result of one call to the order backend: a raised transport exception, or
a returned response (none models a falsy response, some r a truthy one). -/
inductive SubmitResult where
  | raises : SubmitResult
  | returns : Option Nat → SubmitResult
deriving DecidableEq

/-- backoff.on_exception max_tries on create_and_submit_order. -/
def maxTries : Nat := 5

/-- The backoff.on_exception wrapper around create_and_submit_order
(radio_transcript.py lines 143-169): the k-th call is made; a returned
response is passed through unretried; a raising call is retried while fuel
remains; once the cap is exhausted the exception propagates. -/
def runWithRetry (o : Nat → SubmitResult) (k : Nat) : Nat → Except Unit (Option Nat)
  | 0 => Except.error ()
  | n + 1 =>
    match o k with
    | SubmitResult.returns r => Except.ok r
    | SubmitResult.raises => runWithRetry o (k + 1) n

/-- Number of backend calls `runWithRetry` makes with the same oracle, start
index and fuel. -/
def submitCallCount (o : Nat → SubmitResult) (k : Nat) : Nat → Nat
  | 0 => 0
  | n + 1 =>
    match o k with
    | SubmitResult.returns _ => 1
    | SubmitResult.raises => 1 + submitCallCount o (k + 1) n

/-- The status field of trade_info as place_trade records it. -/
inductive Status where
  | pending : Status
  | skipped : Status
  | success : Status
  | failed : Status
  | error : Status
deriving DecidableEq

/-- Observable outcome of one place_trade call: recorded status, the
executed_markets set afterwards, the audit files written into the trades
directory, and the number of trade_logger records emitted in place_trade. -/
structure TradeResult where
  status : Status
  executedAfter : List String
  fileWrites : List String
  logWrites : Nat
deriving DecidableEq

/-- RadioStreamTrader.place_trade (radio_transcript.py lines 171-231): skip
when dedup is on and the market is already executed (log only, no file);
otherwise submit under retry; a truthy response records success, adds the
market to executed_markets and writes the trade file; a falsy response records
failed and writes the failed file; a propagated exception records error and
writes the error file. -/
def placeTradeRadio (preventDup : Bool) (executed : List String) (marketId : String)
    (o : Nat → SubmitResult) : TradeResult :=
  if preventDup && listHas executed marketId then
    { status := Status.skipped, executedAfter := executed, fileWrites := [], logWrites := 2 }
  else
    match runWithRetry o 0 maxTries with
    | Except.ok (some _) =>
      { status := Status.success, executedAfter := setAdd marketId executed,
        fileWrites := [marketId ++ "_trade.json"], logWrites := 3 }
    | Except.ok none =>
      { status := Status.failed, executedAfter := executed,
        fileWrites := [marketId ++ "_failed.json"], logWrites := 2 }
    | Except.error _ =>
      { status := Status.error, executedAfter := executed,
        fileWrites := [marketId ++ "_error.json"], logWrites := 3 }

/-- MultiMarketTrader.place_trade (youtube.py lines 151-206): identical to the
radio variant except that the failed branch (lines 194-196) only logs — it
writes no audit file. -/
def placeTradeYoutube (preventDup : Bool) (executed : List String) (marketId : String)
    (o : Nat → SubmitResult) : TradeResult :=
  if preventDup && listHas executed marketId then
    { status := Status.skipped, executedAfter := executed, fileWrites := [], logWrites := 2 }
  else
    match runWithRetry o 0 maxTries with
    | Except.ok (some _) =>
      { status := Status.success, executedAfter := setAdd marketId executed,
        fileWrites := [marketId ++ "_trade.json"], logWrites := 3 }
    | Except.ok none =>
      { status := Status.failed, executedAfter := executed,
        fileWrites := [], logWrites := 2 }
    | Except.error _ =>
      { status := Status.error, executedAfter := executed,
        fileWrites := [marketId ++ "_error.json"], logWrites := 3 }

/-- Number of backend calls one place_trade call makes: zero on the skip path,
otherwise the calls of the retry wrapper. -/
def placeTradeSubmitCalls (preventDup : Bool) (executed : List String) (marketId : String)
    (o : Nat → SubmitResult) : Nat :=
  if preventDup && listHas executed marketId then 0
  else submitCallCount o 0 maxTries

/-- A sequence of place_trade calls (radio variant) threading the
executed_markets set through, to state process-lifetime monotonicity. -/
def runDispatches (preventDup : Bool) : List String → List (String × (Nat → SubmitResult)) → List String
  | ex, [] => ex
  | ex, (mid, o) :: rest => runDispatches preventDup (placeTradeRadio preventDup ex mid o).executedAfter rest

/-- Program counter of one thread running place_trade for a fixed market, cut
at its interleaving points: the executed-set check (line 186), the external
submission (lines 192-197, blocking I/O), and the set update (line 200). -/
inductive ThreadPC where
  | ready : ThreadPC
  | passedCheck : ThreadPC
  | submitted : ThreadPC
  | finished : ThreadPC
deriving DecidableEq

/-- Shared state of two threads spawned by process_audio for the same market
(dedup enabled, backend returning truthy): the executed_markets set, each
thread's position, and how many submissions reached the backend. -/
structure RaceState where
  executed : List String
  pc1 : ThreadPC
  pc2 : ThreadPC
  submits : Nat
deriving DecidableEq

/-- One atomic step of a thread: the check reads the set and either skips out
or proceeds; the next step performs the submission; the next adds the market
to the set.  No lock orders these steps across threads. -/
def stepThread (m : String) (executed : List String) (submits : Nat) :
    ThreadPC → ThreadPC × List String × Nat
  | ThreadPC.ready =>
    if listHas executed m then (ThreadPC.finished, executed, submits)
    else (ThreadPC.passedCheck, executed, submits)
  | ThreadPC.passedCheck => (ThreadPC.submitted, executed, submits + 1)
  | ThreadPC.submitted => (ThreadPC.finished, setAdd m executed, submits)
  | ThreadPC.finished => (ThreadPC.finished, executed, submits)

/-- Run one scheduler step: true advances thread 1, false advances thread 2. -/
def raceStep (m : String) (s : RaceState) (turn : Bool) : RaceState :=
  if turn then
    match stepThread m s.executed s.submits s.pc1 with
    | (pc, ex, sub) => { executed := ex, pc1 := pc, pc2 := s.pc2, submits := sub }
  else
    match stepThread m s.executed s.submits s.pc2 with
    | (pc, ex, sub) => { executed := ex, pc1 := s.pc1, pc2 := pc, submits := sub }

/-- Run a whole schedule of interleaved steps. -/
def runSchedule (m : String) (s : RaceState) : List Bool → RaceState
  | [] => s
  | t :: rest => runSchedule m (raceStep m s t) rest

/-- Concatenation of a list of byte lists. -/
def concatAll : List (List Nat) → List Nat
  | [] => []
  | l :: ls => l ++ concatAll ls

/-- The chunking loop of stream_audio (radio_transcript.py lines 253-268) as a
function of the sequence of pieces iter_content yields: an empty piece is
ignored; a piece is appended to the buffer; when the accumulated length
reaches the threshold the whole accumulation is emitted as one chunk and the
buffer resets.  The loop end (stream end or the running flag dropping) leaves
the final buffer unemitted — it is returned as the second component and the
source has no flush path for it. -/
def streamChunks (threshold : Nat) : List (List Nat) → List Nat → List (List Nat) × List Nat
  | [], buf => ([], buf)
  | p :: rest, buf =>
    if p = [] then streamChunks threshold rest buf
    else
      let grown := buf ++ p
      if threshold ≤ grown.length then
        match streamChunks threshold rest [] with
        | (cs, b) => (grown :: cs, b)
      else streamChunks threshold rest grown

/-! ### Helper lemmas -/

theorem bool_eq_false_of_ne_true (b : Bool) (h : ¬ b = true) : b = false := by
  cases b
  · rfl
  · exact absurd rfl h

theorem listHas_setAdd_self (x : String) (s : List String) : listHas (setAdd x s) x = true := by
  unfold setAdd
  split
  · assumption
  · simp [listHas]

theorem listHas_setAdd_mono (x y : String) (s : List String) (h : listHas s y = true) :
    listHas (setAdd x s) y = true := by
  unfold setAdd
  split
  · exact h
  · show listHas (x :: s) y = true
    unfold listHas
    split
    · rfl
    · exact h

theorem submitCallCount_le (o : Nat → SubmitResult) : ∀ (n k : Nat), submitCallCount o k n ≤ n := by
  intro n
  induction n with
  | zero =>
    intro k
    simp [submitCallCount]
  | succ m ih =>
    intro k
    have h1 := ih (k + 1)
    cases h : o k with
    | returns r => simp [submitCallCount, h]
    | raises =>
      simp [submitCallCount, h]
      omega

theorem submitCallCount_pos (o : Nat → SubmitResult) (k n : Nat) (h : 0 < n) :
    1 ≤ submitCallCount o k n := by
  cases n with
  | zero => omega
  | succ m =>
    cases hk : o k with
    | returns r => simp [submitCallCount, hk]
    | raises =>
      simp [submitCallCount, hk]

theorem runWithRetry_error_iff (o : Nat → SubmitResult) :
    ∀ (n k : Nat),
      (runWithRetry o k n = Except.error () ↔ ∀ j, j < n → o (k + j) = SubmitResult.raises) := by
  intro n
  induction n with
  | zero =>
    intro k
    constructor
    · intro _ j hj
      exact absurd hj (Nat.not_lt_zero j)
    · intro _
      rfl
  | succ m ih =>
    intro k
    constructor
    · intro h j hj
      cases hk : o k with
      | returns r =>
        simp [runWithRetry, hk] at h
      | raises =>
        have h2 : runWithRetry o (k + 1) m = Except.error () := by
          simp only [runWithRetry, hk] at h
          exact h
        cases j with
        | zero => simpa using hk
        | succ i =>
          have h3 := (ih (k + 1)).mp h2 i (by omega)
          have e : k + 1 + i = k + (i + 1) := by omega
          rwa [e] at h3
    · intro hall
      have h0 : o k = SubmitResult.raises := by simpa using hall 0 (by omega)
      simp only [runWithRetry, h0]
      exact (ih (k + 1)).mpr (fun j hj => by
        have h3 := hall (j + 1) (by omega)
        have e : k + (j + 1) = k + 1 + j := by omega
        rwa [e] at h3)

theorem submitCallCount_first_return (o : Nat → SubmitResult) :
    ∀ (i n k : Nat) (r : Option Nat), i < n →
      (∀ j, j < i → o (k + j) = SubmitResult.raises) →
      o (k + i) = SubmitResult.returns r →
      submitCallCount o k n = i + 1 := by
  intro i
  induction i with
  | zero =>
    intro n k r hn _ hret
    cases n with
    | zero => omega
    | succ m =>
      have h0 : o k = SubmitResult.returns r := by simpa using hret
      simp [submitCallCount, h0]
  | succ i ih =>
    intro n k r hn hpre hret
    cases n with
    | zero => omega
    | succ m =>
      have h0 : o k = SubmitResult.raises := by simpa using hpre 0 (Nat.succ_pos i)
      have hrec : submitCallCount o (k + 1) m = i + 1 := by
        apply ih m (k + 1) r (by omega)
        · intro j hj
          have h3 := hpre (j + 1) (by omega)
          have e : k + (j + 1) = k + 1 + j := by omega
          rwa [e] at h3
        · have h3 := hret
          have e : k + (i + 1) = k + 1 + i := by omega
          rwa [e] at h3
      simp [submitCallCount, h0, hrec]
      omega

theorem placeTradeRadio_skip (d : Bool) (ex : List String) (mid : String)
    (o : Nat → SubmitResult) (h : (d && listHas ex mid) = true) :
    placeTradeRadio d ex mid o =
      { status := Status.skipped, executedAfter := ex, fileWrites := [], logWrites := 2 } := by
  unfold placeTradeRadio
  simp [h]

theorem placeTradeRadio_cases (d : Bool) (ex : List String) (mid : String)
    (o : Nat → SubmitResult) (h : (d && listHas ex mid) = false) :
    (∃ v, runWithRetry o 0 maxTries = Except.ok (some v) ∧
        placeTradeRadio d ex mid o =
          { status := Status.success, executedAfter := setAdd mid ex,
            fileWrites := [mid ++ "_trade.json"], logWrites := 3 })
    ∨ (runWithRetry o 0 maxTries = Except.ok none ∧
        placeTradeRadio d ex mid o =
          { status := Status.failed, executedAfter := ex,
            fileWrites := [mid ++ "_failed.json"], logWrites := 2 })
    ∨ (runWithRetry o 0 maxTries = Except.error () ∧
        placeTradeRadio d ex mid o =
          { status := Status.error, executedAfter := ex,
            fileWrites := [mid ++ "_error.json"], logWrites := 3 }) := by
  unfold placeTradeRadio
  simp only [h, Bool.false_eq_true, if_false]
  cases hr : runWithRetry o 0 maxTries with
  | ok r =>
    cases r with
    | some v => exact Or.inl ⟨v, rfl, rfl⟩
    | none => exact Or.inr (Or.inl ⟨rfl, rfl⟩)
  | error e =>
    cases e
    exact Or.inr (Or.inr ⟨rfl, rfl⟩)

theorem placeTradeYoutube_skip (d : Bool) (ex : List String) (mid : String)
    (o : Nat → SubmitResult) (h : (d && listHas ex mid) = true) :
    placeTradeYoutube d ex mid o =
      { status := Status.skipped, executedAfter := ex, fileWrites := [], logWrites := 2 } := by
  unfold placeTradeYoutube
  simp [h]

theorem placeTradeYoutube_cases (d : Bool) (ex : List String) (mid : String)
    (o : Nat → SubmitResult) (h : (d && listHas ex mid) = false) :
    (∃ v, runWithRetry o 0 maxTries = Except.ok (some v) ∧
        placeTradeYoutube d ex mid o =
          { status := Status.success, executedAfter := setAdd mid ex,
            fileWrites := [mid ++ "_trade.json"], logWrites := 3 })
    ∨ (runWithRetry o 0 maxTries = Except.ok none ∧
        placeTradeYoutube d ex mid o =
          { status := Status.failed, executedAfter := ex,
            fileWrites := [], logWrites := 2 })
    ∨ (runWithRetry o 0 maxTries = Except.error () ∧
        placeTradeYoutube d ex mid o =
          { status := Status.error, executedAfter := ex,
            fileWrites := [mid ++ "_error.json"], logWrites := 3 }) := by
  unfold placeTradeYoutube
  simp only [h, Bool.false_eq_true, if_false]
  cases hr : runWithRetry o 0 maxTries with
  | ok r =>
    cases r with
    | some v => exact Or.inl ⟨v, rfl, rfl⟩
    | none => exact Or.inr (Or.inl ⟨rfl, rfl⟩)
  | error e =>
    cases e
    exact Or.inr (Or.inr ⟨rfl, rfl⟩)

theorem detect_exact_eq (text : String) (kws : List String) :
    detectKeyword text kws "exact" = (if listHas kws text then some text else none) := by
  unfold detectKeyword
  rw [if_pos rfl]

theorem detect_any_eq_first (text : String) (kws : List String) :
    detectKeyword text kws "any" = firstContainedKeyword kws text := by
  unfold detectKeyword
  rw [if_neg (by decide), if_pos rfl]

theorem firstContained_none_iff (text : String) :
    ∀ kws : List String,
      (firstContainedKeyword kws text = none ↔ ∀ kw ∈ kws, pyInStr kw text = false) := by
  intro kws
  induction kws with
  | nil => simp [firstContainedKeyword]
  | cons kw rest ih =>
    cases h : pyInStr kw text with
    | true =>
      constructor
      · intro hc
        simp [firstContainedKeyword, h] at hc
      · intro hall
        exact absurd (hall kw (by simp)) (by simp [h])
    | false =>
      simp [firstContainedKeyword, h, ih]

theorem firstContained_some_spec (text : String) :
    ∀ (kws : List String) (k : String), firstContainedKeyword kws text = some k →
      pyInStr k text = true ∧
        ∃ pre post, kws = pre ++ k :: post ∧ ∀ kw ∈ pre, pyInStr kw text = false := by
  intro kws
  induction kws with
  | nil =>
    intro k hk
    simp [firstContainedKeyword] at hk
  | cons kw rest ih =>
    intro k hk
    cases h : pyInStr kw text with
    | true =>
      simp [firstContainedKeyword, h] at hk
      subst hk
      exact ⟨h, [], rest, rfl, by simp⟩
    | false =>
      simp only [firstContainedKeyword, h, Bool.false_eq_true, if_false] at hk
      obtain ⟨hpk, pre, post, heq, hpre⟩ := ih k hk
      refine ⟨hpk, kw :: pre, post, by rw [heq]; rfl, ?_⟩
      intro kw2 hkw2
      rcases List.mem_cons.mp hkw2 with h1 | h2
      · rw [h1]; exact h
      · exact hpre kw2 h2

theorem lowerStr_eq_empty_iff (s : String) : lowerStr s = "" ↔ s = "" := by
  have hnil : ("" : String).data = [] := rfl
  rw [String.ext_iff, String.ext_iff, hnil]
  show s.data.map Char.toLower = [] ↔ s.data = []
  exact List.map_eq_nil_iff

/-! ### Claims -/

/-- C3: in Exact mode a trigger matches if and only if the utterance text equals one of
its configured keywords, and the reported keyword is the entire utterance text itself;
an utterance strictly containing a keyword, such as "mcdonalds please" against
"mcdonalds", never matches. -/
theorem exact_mode_equality_and_binds_utterance (text : String) (kws : List String) :
    ((∃ k, detectKeyword text kws "exact" = some k) ↔ listHas kws text = true)
    ∧ (∀ k, detectKeyword text kws "exact" = some k → k = text)
    ∧ detectKeyword "mcdonalds please" ["mcdonalds"] "exact" = none := by
  refine ⟨?_, ?_, by decide⟩
  · rw [detect_exact_eq]
    cases h : listHas kws text with
    | true => simp
    | false => simp
  · intro k hk
    rw [detect_exact_eq] at hk
    cases h : listHas kws text with
    | true =>
      rw [h] at hk
      simp at hk
      exact hk.symm
    | false =>
      rw [h] at hk
      simp at hk

/-- Witness for C3 at a concrete exact-mode trigger. -/
theorem exact_mode_equality_and_binds_utterance_witness :
    detectKeyword "greenland" ["greenland"] "exact" = some "greenland"
    ∧ "greenland" = "greenland" := by
  refine ⟨by decide, ?_⟩
  exact (exact_mode_equality_and_binds_utterance "greenland" ["greenland"]).2.1 "greenland" (by decide)

/-- C4: in Contains mode ("any" trigger type) a trigger matches if and only if some
configured keyword is a substring of the text, and the reported keyword is the first
keyword in configured order that is contained (first-match-wins); being an Option, at
most one keyword is reported per trigger. -/
theorem contains_mode_first_keyword (text : String) (kws : List String) :
    ((∃ k, detectKeyword text kws "any" = some k) ↔ ∃ kw, kw ∈ kws ∧ pyInStr kw text = true)
    ∧ (∀ k, detectKeyword text kws "any" = some k →
        pyInStr k text = true ∧
          ∃ pre post, kws = pre ++ k :: post ∧ ∀ kw ∈ pre, pyInStr kw text = false) := by
  constructor
  · rw [detect_any_eq_first]
    constructor
    · rintro ⟨k, hk⟩
      obtain ⟨hpk, pre, post, heq, _⟩ := firstContained_some_spec text kws k hk
      exact ⟨k, by rw [heq]; simp, hpk⟩
    · rintro ⟨kw, hmem, hin⟩
      cases hfc : firstContainedKeyword kws text with
      | some k => exact ⟨k, rfl⟩
      | none =>
        have hall := (firstContained_none_iff text kws).mp hfc kw hmem
        rw [hall] at hin
        exact absurd hin (by simp)
  · intro k hk
    rw [detect_any_eq_first] at hk
    exact firstContained_some_spec text kws k hk

/-- Witness for C4 at the dogecoin scenario of the spec. -/
theorem contains_mode_first_keyword_witness :
    pyInStr "dogecoin" "dogecoin to the moon" = true :=
  ((contains_mode_first_keyword "dogecoin to the moon" ["dogecoin", "doge"]).2
    "dogecoin" (by decide)).1

/-- C9 counterexample: a whitespace-only transcriber result is forwarded by the code
(which only lowercases and suppresses the empty string), while the claim's trim plus
whitespace-suppression would drop it; the forwarded whitespace utterance even matches a
trigger whose keyword is a space. -/
theorem whitespace_utterance_forwarded :
    utteranceOfResult " " = some " "
    ∧ utteranceOfResultSpec " " = none
    ∧ detectKeyword " " [" "] "any" = some " " := by decide

/-- C9 amended: the finalized result is lowercased (not trimmed) before matching, and
exactly the empty result is suppressed; any forwarded utterance is the untrimmed
lowercase of the raw result. -/
theorem normalizer_lowercase_only (raw : String) :
    (utteranceOfResult raw = none ↔ raw = "")
    ∧ (∀ u, utteranceOfResult raw = some u → u = lowerStr raw) := by
  constructor
  · constructor
    · intro hn
      by_cases h : lowerStr raw = ""
      · exact (lowerStr_eq_empty_iff raw).mp h
      · simp [utteranceOfResult, h] at hn
    · intro hr
      simp [utteranceOfResult, (lowerStr_eq_empty_iff raw).mpr hr]
  · intro u hu
    by_cases h : lowerStr raw = ""
    · simp [utteranceOfResult, h] at hu
    · simp [utteranceOfResult, h] at hu
      exact hu.symm

/-- Witness for C9's amended theorem at a concrete mixed-case result. -/
theorem normalizer_lowercase_only_witness :
    utteranceOfResult "AB C" = some "ab c" ∧ "ab c" = lowerStr "AB C" := by
  refine ⟨by decide, ?_⟩
  exact (normalizer_lowercase_only "AB C").2 "ab c" (by decide)

/-- C1 counterexample: a dispatch reaching the terminal Failed state (falsy backend
response) leaves executed_markets unchanged, so with dedup enabled a later matching
utterance still fires the trigger and a further dispatch for that market submits to the
backend. -/
theorem failed_terminal_does_not_block :
    (placeTradeRadio true [] "m" (fun _ => SubmitResult.returns none)).status = Status.failed
    ∧ (placeTradeRadio true [] "m" (fun _ => SubmitResult.returns none)).executedAfter = []
    ∧ matcherFires true [] false ⟨"m", ["greenland"], "any"⟩ "greenland again" = some "greenland"
    ∧ (placeTradeRadio true [] "m" (fun _ => SubmitResult.returns (some 1))).status = Status.success
    ∧ placeTradeSubmitCalls true [] "m" (fun _ => SubmitResult.returns (some 1)) = 1 := by decide

/-- C1 amended: with dedup enabled, once a marketId is in the executed set — which
happens exactly when a dispatch reaches Success — no later matching utterance fires that
trigger, and the dispatch entry skips it with zero submit calls; Failed and Error do not
enter the set. -/
theorem dedup_blocks_executed_markets (executed : List String) (m : MarketConfig)
    (o : Nat → SubmitResult) (text : String) (em : Bool)
    (hm : listHas executed m.marketId = true) :
    matcherFires true executed em m text = none
    ∧ (placeTradeRadio true executed m.marketId o).status = Status.skipped
    ∧ placeTradeSubmitCalls true executed m.marketId o = 0
    ∧ (∀ (ex : List String) (o2 : Nat → SubmitResult),
        (placeTradeRadio true ex m.marketId o2).status = Status.success →
        listHas (placeTradeRadio true ex m.marketId o2).executedAfter m.marketId = true) := by
  refine ⟨?_, ?_, ?_, ?_⟩
  · unfold matcherFires
    simp [hm]
  · rw [placeTradeRadio_skip true executed m.marketId o (by simp [hm])]
  · unfold placeTradeSubmitCalls
    simp [hm]
  · intro ex o2 hs
    by_cases hskip : (true && listHas ex m.marketId) = true
    · rw [placeTradeRadio_skip true ex m.marketId o2 hskip] at hs
      exact absurd hs (by simp)
    · have hns := bool_eq_false_of_ne_true _ hskip
      rcases placeTradeRadio_cases true ex m.marketId o2 hns with ⟨v, _, hp⟩ | ⟨_, hp⟩ | ⟨_, hp⟩
      · rw [hp]
        exact listHas_setAdd_self m.marketId ex
      · rw [hp] at hs
        exact absurd hs (by simp)
      · rw [hp] at hs
        exact absurd hs (by simp)

/-- Witness for C1's amended theorem at a concrete executed market. -/
theorem dedup_blocks_executed_markets_witness :
    matcherFires true ["m"] false ⟨"m", ["greenland"], "any"⟩ "greenland" = none
    ∧ (placeTradeRadio true ["m"] "m" (fun _ => SubmitResult.returns (some 1))).status = Status.skipped
    ∧ placeTradeSubmitCalls true ["m"] "m" (fun _ => SubmitResult.returns (some 1)) = 0
    ∧ (∀ (ex : List String) (o2 : Nat → SubmitResult),
        (placeTradeRadio true ex "m" o2).status = Status.success →
        listHas (placeTradeRadio true ex "m" o2).executedAfter "m" = true) :=
  dedup_blocks_executed_markets ["m"] ⟨"m", ["greenland"], "any"⟩
    (fun _ => SubmitResult.returns (some 1)) "greenland" false (by decide)

theorem placeTradeRadio_mono (d : Bool) (ex : List String) (mid : String)
    (o : Nat → SubmitResult) (x : String) (h : listHas ex x = true) :
    listHas (placeTradeRadio d ex mid o).executedAfter x = true := by
  by_cases hs : (d && listHas ex mid) = true
  · rw [placeTradeRadio_skip d ex mid o hs]
    exact h
  · have hns := bool_eq_false_of_ne_true _ hs
    rcases placeTradeRadio_cases d ex mid o hns with ⟨v, _, hp⟩ | ⟨_, hp⟩ | ⟨_, hp⟩ <;> rw [hp]
    · exact listHas_setAdd_mono mid x ex h
    · exact h
    · exact h

theorem runDispatches_mono (d : Bool) :
    ∀ (jobs : List (String × (Nat → SubmitResult))) (ex : List String) (x : String),
      listHas ex x = true → listHas (runDispatches d ex jobs) x = true := by
  intro jobs
  induction jobs with
  | nil =>
    intro ex x h
    exact h
  | cons job rest ih =>
    intro ex x h
    cases job with
    | mk mid o =>
      show listHas (runDispatches d (placeTradeRadio d ex mid o).executedAfter rest) x = true
      exact ih _ x (placeTradeRadio_mono d ex mid o x h)

/-- C10: the executed set never shrinks (also across any sequence of dispatches), a
market is added exactly when the backend returned a truthy response (the Success
outcome), a Failed or Error dispatch leaves the set unchanged, and such a market stays
eligible: a later dispatch for it is not skipped and makes at least one submit call even
with dedup enabled. -/
theorem executed_set_monotone (d : Bool) (ex : List String) (mid : String)
    (o : Nat → SubmitResult) :
    (∀ x, listHas ex x = true → listHas (placeTradeRadio d ex mid o).executedAfter x = true)
    ∧ ((placeTradeRadio d ex mid o).status = Status.success →
        (placeTradeRadio d ex mid o).executedAfter = setAdd mid ex
        ∧ ∃ v, runWithRetry o 0 maxTries = Except.ok (some v))
    ∧ ((placeTradeRadio d ex mid o).status ≠ Status.success →
        (placeTradeRadio d ex mid o).executedAfter = ex)
    ∧ (((placeTradeRadio d ex mid o).status = Status.failed ∨
        (placeTradeRadio d ex mid o).status = Status.error) →
        listHas ex mid = false →
        ∀ o2 : Nat → SubmitResult,
          (placeTradeRadio true (placeTradeRadio d ex mid o).executedAfter mid o2).status ≠ Status.skipped
          ∧ 1 ≤ placeTradeSubmitCalls true (placeTradeRadio d ex mid o).executedAfter mid o2)
    ∧ (∀ (jobs : List (String × (Nat → SubmitResult))) (x : String),
        listHas ex x = true → listHas (runDispatches d ex jobs) x = true) := by
  refine ⟨fun x => placeTradeRadio_mono d ex mid o x, ?_, ?_, ?_, fun jobs => runDispatches_mono d jobs ex⟩
  · intro hs
    by_cases hskip : (d && listHas ex mid) = true
    · rw [placeTradeRadio_skip d ex mid o hskip] at hs
      exact absurd hs (by simp)
    · have hns := bool_eq_false_of_ne_true _ hskip
      rcases placeTradeRadio_cases d ex mid o hns with ⟨v, hr, hp⟩ | ⟨_, hp⟩ | ⟨_, hp⟩
      · rw [hp]
        exact ⟨rfl, v, hr⟩
      · rw [hp] at hs
        exact absurd hs (by simp)
      · rw [hp] at hs
        exact absurd hs (by simp)
  · intro hs
    by_cases hskip : (d && listHas ex mid) = true
    · rw [placeTradeRadio_skip d ex mid o hskip]
    · have hns := bool_eq_false_of_ne_true _ hskip
      rcases placeTradeRadio_cases d ex mid o hns with ⟨v, _, hp⟩ | ⟨_, hp⟩ | ⟨_, hp⟩
      · rw [hp] at hs
        exact absurd rfl hs
      · rw [hp]
      · rw [hp]
  · intro hfe hmid o2
    have hafter : (placeTradeRadio d ex mid o).executedAfter = ex := by
      by_cases hskip : (d && listHas ex mid) = true
      · rw [placeTradeRadio_skip d ex mid o hskip]
      · have hns := bool_eq_false_of_ne_true _ hskip
        rcases placeTradeRadio_cases d ex mid o hns with ⟨v, _, hp⟩ | ⟨_, hp⟩ | ⟨_, hp⟩
        · rw [hp] at hfe
          rcases hfe with h1 | h1 <;> exact absurd h1 (by simp)
        · rw [hp]
        · rw [hp]
    rw [hafter]
    have hns2 : (true && listHas ex mid) = false := by simp [hmid]
    constructor
    · rcases placeTradeRadio_cases true ex mid o2 hns2 with ⟨v, _, hp⟩ | ⟨_, hp⟩ | ⟨_, hp⟩ <;>
        rw [hp] <;> simp
    · unfold placeTradeSubmitCalls
      rw [hns2]
      simp only [Bool.false_eq_true, if_false]
      exact submitCallCount_pos o2 0 maxTries (by decide)

/-- Witness for C10 at a concrete failed dispatch: the set is unchanged and the market
remains eligible. -/
theorem executed_set_monotone_witness :
    (placeTradeRadio true [] "m" (fun _ => SubmitResult.returns none)).executedAfter = [] :=
  (executed_set_monotone true [] "m" (fun _ => SubmitResult.returns none)).2.2.1 (by decide)

/-- C5: a dispatch whose submission raises transport exceptions is retried up to the cap
of maxTries = 5 attempts, the recorded state is Error exactly when all five attempts
raised, and a returned response — whatever its payload — is never retried: the number of
backend calls is the index of the first returning attempt plus one, and never exceeds
the cap.  (The exponential jittered waiting between attempts is decorator configuration
and is not part of the state modelled.) -/
theorem retry_cap_and_error_iff (d : Bool) (ex : List String) (mid : String)
    (o : Nat → SubmitResult) (hns : (d && listHas ex mid) = false) :
    ((placeTradeRadio d ex mid o).status = Status.error ↔
      ∀ k, k < maxTries → o k = SubmitResult.raises)
    ∧ (∀ i r, i < maxTries → (∀ j, j < i → o j = SubmitResult.raises) →
        o i = SubmitResult.returns r → placeTradeSubmitCalls d ex mid o = i + 1)
    ∧ placeTradeSubmitCalls d ex mid o ≤ maxTries := by
  have hcalls : placeTradeSubmitCalls d ex mid o = submitCallCount o 0 maxTries := by
    unfold placeTradeSubmitCalls
    rw [hns]
    simp
  have herr := runWithRetry_error_iff o maxTries 0
  refine ⟨?_, ?_, ?_⟩
  · rcases placeTradeRadio_cases d ex mid o hns with ⟨v, hr, hp⟩ | ⟨hr, hp⟩ | ⟨hr, hp⟩
    · rw [hp]
      constructor
      · intro h
        exact absurd h (by simp)
      · intro hall
        have h2 : runWithRetry o 0 maxTries = Except.error () :=
          herr.mpr (fun j hj => by simpa using hall j hj)
        rw [hr] at h2
        exact absurd h2 (by simp)
    · rw [hp]
      constructor
      · intro h
        exact absurd h (by simp)
      · intro hall
        have h2 : runWithRetry o 0 maxTries = Except.error () :=
          herr.mpr (fun j hj => by simpa using hall j hj)
        rw [hr] at h2
        exact absurd h2 (by simp)
    · rw [hp]
      constructor
      · intro _ k hk
        simpa using herr.mp hr k hk
      · intro _
        rfl
  · intro i r hi hpre hret
    rw [hcalls]
    exact submitCallCount_first_return o i maxTries 0 r hi
      (fun j hj => by simpa using hpre j hj) (by simpa using hret)
  · rw [hcalls]
    exact submitCallCount_le o maxTries 0

/-- Witness for C5 at an always-raising backend: the state is Error after the cap. -/
theorem retry_cap_and_error_iff_witness :
    ((placeTradeRadio true [] "m" (fun _ => SubmitResult.raises)).status = Status.error ↔
      ∀ k, k < maxTries → (fun _ : Nat => SubmitResult.raises) k = SubmitResult.raises) :=
  (retry_cap_and_error_iff true [] "m" (fun _ => SubmitResult.raises) (by decide)).1

/-- C6: a submission whose first call returns without raising but with a falsy response
records the Failed outcome with exactly one backend call — a falsy response is not
retried. -/
theorem falsy_response_failed_once (d : Bool) (ex : List String) (mid : String)
    (o : Nat → SubmitResult) (hns : (d && listHas ex mid) = false)
    (h0 : o 0 = SubmitResult.returns none) :
    (placeTradeRadio d ex mid o).status = Status.failed
    ∧ placeTradeSubmitCalls d ex mid o = 1 := by
  have hr : runWithRetry o 0 maxTries = Except.ok none := by
    show runWithRetry o 0 (4 + 1) = Except.ok none
    simp [runWithRetry, h0]
  constructor
  · rcases placeTradeRadio_cases d ex mid o hns with ⟨v, hr2, hp⟩ | ⟨hr2, hp⟩ | ⟨hr2, hp⟩
    · rw [hr] at hr2
      exact absurd hr2 (by simp)
    · rw [hp]
    · rw [hr] at hr2
      exact absurd hr2 (by simp)
  · have hc : submitCallCount o 0 maxTries = 1 := by
      show submitCallCount o 0 (4 + 1) = 1
      simp [submitCallCount, h0]
    unfold placeTradeSubmitCalls
    rw [hns]
    simpa using hc

/-- Witness for C6 at a concrete falsy-responding backend. -/
theorem falsy_response_failed_once_witness :
    (placeTradeRadio false ["m"] "m" (fun _ => SubmitResult.returns none)).status = Status.failed
    ∧ placeTradeSubmitCalls false ["m"] "m" (fun _ => SubmitResult.returns none) = 1 :=
  falsy_response_failed_once false ["m"] "m" (fun _ => SubmitResult.returns none)
    (by decide) (by decide)

/-- C7 counterexample: a skipped dispatch writes no audit record file in the radio
dispatcher (only a log line), and in the youtube variant a failed dispatch also writes
no audit record file. -/
theorem audit_gaps_counterexample :
    (placeTradeRadio true ["m1"] "m1" (fun _ => SubmitResult.returns (some 1))).status = Status.skipped
    ∧ (placeTradeRadio true ["m1"] "m1" (fun _ => SubmitResult.returns (some 1))).fileWrites = []
    ∧ (placeTradeYoutube true [] "m2" (fun _ => SubmitResult.returns none)).status = Status.failed
    ∧ (placeTradeYoutube true [] "m2" (fun _ => SubmitResult.returns none)).fileWrites = [] := by decide

/-- C7 amended: every dispatch emits at least one trade-log record in both variants;
the radio dispatcher persists an independent audit file for the Success, Failed and
Error outcomes but records a skip only in the log, and the youtube variant persists
files only for Success and Error, recording both the skipped and the failed outcome
only in the log. -/
theorem audit_writes_by_branch (d : Bool) (ex : List String) (mid : String)
    (o : Nat → SubmitResult) :
    1 ≤ (placeTradeRadio d ex mid o).logWrites
    ∧ 1 ≤ (placeTradeYoutube d ex mid o).logWrites
    ∧ ((placeTradeRadio d ex mid o).status = Status.success ∨
        (placeTradeRadio d ex mid o).status = Status.failed ∨
        (placeTradeRadio d ex mid o).status = Status.error →
        (placeTradeRadio d ex mid o).fileWrites ≠ [])
    ∧ ((placeTradeRadio d ex mid o).status = Status.skipped →
        (placeTradeRadio d ex mid o).fileWrites = [])
    ∧ ((placeTradeYoutube d ex mid o).status = Status.success ∨
        (placeTradeYoutube d ex mid o).status = Status.error →
        (placeTradeYoutube d ex mid o).fileWrites ≠ [])
    ∧ ((placeTradeYoutube d ex mid o).status = Status.skipped ∨
        (placeTradeYoutube d ex mid o).status = Status.failed →
        (placeTradeYoutube d ex mid o).fileWrites = []) := by
  by_cases hs : (d && listHas ex mid) = true
  · rw [placeTradeRadio_skip d ex mid o hs, placeTradeYoutube_skip d ex mid o hs]
    refine ⟨by simp, by simp, ?_, fun _ => rfl, ?_, fun _ => rfl⟩
    · intro h
      rcases h with h | h | h <;> exact absurd h (by simp)
    · intro h
      rcases h with h | h <;> exact absurd h (by simp)
  · have hns := bool_eq_false_of_ne_true _ hs
    refine ⟨?_, ?_, ?_, ?_, ?_, ?_⟩
    · rcases placeTradeRadio_cases d ex mid o hns with ⟨v, _, hp⟩ | ⟨_, hp⟩ | ⟨_, hp⟩ <;>
        rw [hp] <;> simp
    · rcases placeTradeYoutube_cases d ex mid o hns with ⟨v, _, hp⟩ | ⟨_, hp⟩ | ⟨_, hp⟩ <;>
        rw [hp] <;> simp
    · rcases placeTradeRadio_cases d ex mid o hns with ⟨v, _, hp⟩ | ⟨_, hp⟩ | ⟨_, hp⟩ <;>
        rw [hp] <;> intro _ <;> simp
    · rcases placeTradeRadio_cases d ex mid o hns with ⟨v, _, hp⟩ | ⟨_, hp⟩ | ⟨_, hp⟩ <;>
        rw [hp] <;> intro h <;> exact absurd h (by simp)
    · rcases placeTradeYoutube_cases d ex mid o hns with ⟨v, _, hp⟩ | ⟨_, hp⟩ | ⟨_, hp⟩ <;>
        rw [hp]
      · intro _; simp
      · intro h
        rcases h with h | h <;> exact absurd h (by simp)
      · intro _; simp
    · rcases placeTradeYoutube_cases d ex mid o hns with ⟨v, _, hp⟩ | ⟨_, hp⟩ | ⟨_, hp⟩ <;>
        rw [hp]
      · intro h
        rcases h with h | h <;> exact absurd h (by simp)
      · intro _; rfl
      · intro h
        rcases h with h | h <;> exact absurd h (by simp)

/-- Witness for C7's amended theorem at a concrete successful dispatch. -/
theorem audit_writes_by_branch_witness :
    (placeTradeRadio true [] "m" (fun _ => SubmitResult.returns (some 1))).fileWrites ≠ [] :=
  (audit_writes_by_branch true [] "m" (fun _ => SubmitResult.returns (some 1))).2.2.1
    (Or.inl (by decide))

/-- C2 evidence: in the interleaving where both spawned place_trade threads pass the
executed-markets check before either submits, two submissions reach the backend for the
same market; under the serial interleaving only one does.  The check and the dispatch
are not mutually exclusive in the code — no lock protects the check-then-act sequence
around the blocking submission. -/
theorem race_allows_two_submits :
    (runSchedule "m" { executed := [], pc1 := ThreadPC.ready, pc2 := ThreadPC.ready, submits := 0 }
      [true, false, true, false, true, false]).submits = 2
    ∧ (runSchedule "m" { executed := [], pc1 := ThreadPC.ready, pc2 := ThreadPC.ready, submits := 0 }
      [true, true, true, false, false, false]).submits = 1 := by decide

/-- C8 counterexample: a byte stream of exactly 2 x threshold bytes delivered as a
single piece emits one chunk, not two, so chunk emission is not the claimed function of
the byte stream alone; and a terminal sub-threshold fragment stays in the buffer, which
the loop end discards without a flush. -/
theorem chunker_piece_boundary_counterexample :
    streamChunks 2 [[0, 1, 2, 3]] [] = ([[0, 1, 2, 3]], [])
    ∧ streamChunks 2 [[9]] [] = ([], [9]) := by decide

theorem streamChunks_aligned (T : Nat) (hT : 0 < T) :
    ∀ pieces : List (List Nat), (∀ p ∈ pieces, p.length = T) →
      streamChunks T pieces [] = (pieces, []) := by
  intro pieces
  induction pieces with
  | nil =>
    intro _
    rfl
  | cons p rest ih =>
    intro hall
    have hp : p.length = T := hall p (by simp)
    have hpne : ¬ p = [] := by
      intro hnil
      rw [hnil] at hp
      simp at hp
      omega
    have hrest := ih (fun q hq => hall q (List.mem_cons_of_mem p hq))
    simp only [streamChunks, if_neg hpne, List.nil_append]
    rw [if_pos (by omega), hrest]

theorem streamChunks_conserves (T : Nat) :
    ∀ (ps : List (List Nat)) (buf : List Nat),
      concatAll (streamChunks T ps buf).1 ++ (streamChunks T ps buf).2 = buf ++ concatAll ps := by
  intro ps
  induction ps with
  | nil =>
    intro buf
    simp [streamChunks, concatAll]
  | cons p rest ih =>
    intro buf
    by_cases hp : p = []
    · rw [hp]
      have he : streamChunks T ([] :: rest) buf = streamChunks T rest buf := by
        simp [streamChunks]
      rw [he, ih buf]
      simp [concatAll]
    · simp only [streamChunks, if_neg hp]
      by_cases hlen : T ≤ (buf ++ p).length
      · rw [if_pos hlen]
        have h2 := ih []
        cases hres : streamChunks T rest [] with
        | mk cs b =>
          rw [hres] at h2
          simp only at h2
          simp only [concatAll, List.append_assoc]
          rw [h2]
          simp [concatAll]
      · rw [if_neg hlen]
        rw [ih (buf ++ p)]
        simp [concatAll, List.append_assoc]

/-- C8 amended: a chunk is emitted each time the accumulation reaches the byte
threshold and carries the entire accumulation, so emission depends on the piece
boundaries of the stream: N pieces of exactly the threshold size emit exactly N chunks
with an empty final buffer, while larger pieces emit fewer, larger chunks; nothing is
lost or reordered before the loop ends (the emitted chunks concatenated with the final
buffer equal the bytes received), and the final sub-threshold buffer is dropped at loop
end rather than flushed. -/
theorem chunker_aligned_and_conserves (T : Nat) (pieces : List (List Nat)) (hT : 0 < T)
    (hall : ∀ p ∈ pieces, p.length = T) :
    streamChunks T pieces [] = (pieces, [])
    ∧ ∀ (ps : List (List Nat)) (buf : List Nat),
        concatAll (streamChunks T ps buf).1 ++ (streamChunks T ps buf).2 = buf ++ concatAll ps :=
  ⟨streamChunks_aligned T hT pieces hall, streamChunks_conserves T⟩

/-- Witness for C8's amended theorem with two threshold-sized pieces. -/
theorem chunker_aligned_and_conserves_witness :
    streamChunks 2 [[0, 1], [2, 3]] [] = ([[0, 1], [2, 3]], [])
    ∧ ∀ (ps : List (List Nat)) (buf : List Nat),
        concatAll (streamChunks 2 ps buf).1 ++ (streamChunks 2 ps buf).2 = buf ++ concatAll ps :=
  chunker_aligned_and_conserves 2 [[0, 1], [2, 3]] (by decide) (by decide)

end SpeechBot
